import Mathlib

/-!
Verification of the per-key version-series decision algorithm and the
retention pipeline of the s3-object-cleanup repository.

Shallow embedding conventions:
* Go `time.Time` values are modelled as `Int` (an abstract instant on an
  integer timeline, e.g. Unix nanoseconds); the Go zero time is modelled
  as `0`, so `t.IsZero()` becomes `t = 0`, `a.Before(b)` becomes `a < b`,
  and `t.Add(d)` becomes `t + d`.
* Go `time.Duration` values are modelled as `Int` in the same unit.
* Go strings are modelled as `String` with the lexicographic order of
  `String` standing in for Go byte-wise string comparison.
* Stateful code is modelled by explicit oracles for the external calls
  plus an event list recording the side effects that were performed.
-/

/-- Model of `objectVersion` (object.go). -/
structure objectVersion where
  lastModified : Int
  retainUntil : Int
  key : String
  versionID : String
  size : Int
  isLatest : Bool
  deleteMarker : Bool
deriving Repr, DecidableEq, Inhabited

/-- Model of `retentionExtenderRequest` (extender draft in extender_test.go). -/
structure retentionExtenderRequest where
  object : objectVersion
  untilTime : Int
deriving Repr, DecidableEq, Inhabited

/-- Model of `versionSeriesResult` (part_010). -/
structure versionSeriesResult where
  expired : List objectVersion
  retention : List retentionExtenderRequest
deriving Repr, DecidableEq, Inhabited

/-- Model of `versionSeries` (part_010). -/
structure versionSeries where
  key : String
  items : List objectVersion
  haveLatest : Bool
deriving Repr, DecidableEq, Inhabited

/-- The comparison used by `versionSeries.add` (part_010 lines 42-47):
`cmp.Or(a.lastModified.Compare(b.lastModified), cmp.Compare(a.versionID, b.versionID))`. -/
def ovCmp (a b : objectVersion) : Ordering :=
  if a.lastModified < b.lastModified then .lt
  else if b.lastModified < a.lastModified then .gt
  else if a.versionID < b.versionID then .lt
  else if b.versionID < a.versionID then .gt
  else .eq

/-- Non-strict order induced by `ovCmp`. -/
def ovLE (a b : objectVersion) : Prop := ovCmp a b ≠ .gt

instance (a b : objectVersion) : Decidable (ovLE a b) := by
  unfold ovLE; infer_instance

/-- Lower-bound sorted insertion. Go uses `slices.BinarySearchFunc` to find
the first position whose element compares `≥` the new element and inserts
there (part_010 lines 42-49); on the sorted `items` list this is exactly
lower-bound insertion. -/
def insertSorted (v : objectVersion) : List objectVersion → List objectVersion
  | [] => [v]
  | x :: xs => if ovCmp x v = .lt then x :: insertSorted v xs else v :: x :: xs

/-- Model of `newVersionSeries` (part_010 lines 27-31). -/
def newVersionSeries (key : String) : versionSeries :=
  { key := key, items := [], haveLatest := false }

/-- Model of `versionSeries.add` (part_010 lines 33-50). -/
def versionSeries.add (s : versionSeries) (v : objectVersion) : versionSeries :=
  { s with
    haveLatest := s.haveLatest || v.isLatest
    items := insertSorted v s.items }

/-- Insertion of a whole list, mirroring the processor loop feeding
`versionSeries.add` one record at a time (part_010 lines 176-188). -/
def versionSeries.addAll (s : versionSeries) (l : List objectVersion) : versionSeries :=
  l.foldl versionSeries.add s

/-- Model of `versionSeriesFinalizeOptions` (part_010 lines 52-56). -/
structure versionSeriesFinalizeOptions where
  now : Int
  minRetention : Int
  minDeletionAge : Int
deriving Repr, DecidableEq, Inhabited

/-- Model of `versionSeriesFinalizeOptions.extend` (part_010 lines 68-75). -/
def versionSeriesFinalizeOptions.extend (o : versionSeriesFinalizeOptions)
    (ov : objectVersion) (untilTime : Int) : retentionExtenderRequest × Bool :=
  ({ object := ov, untilTime := untilTime },
    (decide (ov.retainUntil = 0) || decide (ov.retainUntil < untilTime)) && !ov.deleteMarker)

/-- Model of `versionSeriesFinalizeOptions.extendFromNow` (part_010 lines 58-66). -/
def versionSeriesFinalizeOptions.extendFromNow (o : versionSeriesFinalizeOptions)
    (ov : objectVersion) : retentionExtenderRequest × Bool :=
  let origin := if o.now < ov.lastModified then ov.lastModified else o.now
  o.extend ov (origin + o.minRetention)

/-- `if ok { result.retention = append(result.retention, req) }` as a list. -/
def emitOpt (x : retentionExtenderRequest × Bool) : List retentionExtenderRequest :=
  if x.2 then [x.1] else []

/-- The per-item expiration predicate of the final loop of
`versionSeries.finalize` (part_010 lines 134-148): the item
field `lastModified` is before `now - minDeletionAge` and its `retainUntil` is
zero or before `now`. -/
def expiryPred (o : versionSeriesFinalizeOptions) (ov : objectVersion) : Bool :=
  decide (ov.lastModified < o.now - o.minDeletionAge) &&
    (decide (ov.retainUntil = 0) || decide (ov.retainUntil < o.now))

/-- The inner loop of `versionSeries.finalize` (part_010 lines 109-121):
starting at the latest (tombstone) position, walk toward older items,
skipping delete markers; at the first regular version extend it to
`expires` and stop.  The input list is the remaining items newest first
(`items[pos], items[pos-1], ...`); the second component of the result is
`items[:pos]` for the final value of `pos` (the expiry source), which is
empty when the loop runs out (`pos = -1`). -/
def anchorLoop (o : versionSeriesFinalizeOptions) (expires : Int) :
    List objectVersion → List retentionExtenderRequest × List objectVersion
  | [] => ([], [])
  | ov :: rest =>
    if ov.deleteMarker then anchorLoop o expires rest
    else (emitOpt (o.extend ov expires), rest.reverse)

/-- The outer loop of `versionSeries.finalize` (part_010 lines 90-132):
walk from the newest item toward older ones; every non-latest item gets a
retention extension from `now`; at the first item flagged `isLatest` the
loop decides between the regular, expired-tombstone, and
lingering-tombstone cases and stops.  The input list is `items` reversed
(newest first).  The second component of the result is `items[:pos]` for
the final value of `pos` (empty when `pos = -1`). -/
def outerLoop (o : versionSeriesFinalizeOptions) :
    List objectVersion → List retentionExtenderRequest × List objectVersion
  | [] => ([], [])
  | ov :: rest =>
    if ov.isLatest then
      if ov.deleteMarker then
        -- Delete markers do not support retention periods.
        let expires := ov.lastModified + o.minDeletionAge
        if expires < o.now then
          -- Already expired: `pos++` then break, so the tombstone itself
          -- is part of the expiry source `items[:pos]`.
          ([], rest.reverse ++ [ov])
        else
          anchorLoop o expires (ov :: rest)
      else
        (emitOpt (o.extendFromNow ov), rest.reverse)
    else
      let r := outerLoop o rest
      (emitOpt (o.extendFromNow ov) ++ r.1, r.2)

/-! Branch equations for the two loops, used to unfold them in proofs. -/

lemma anchorLoop_cons_marker (o : versionSeriesFinalizeOptions) (expires : Int)
    (ov : objectVersion) (rest : List objectVersion) (hd : ov.deleteMarker = true) :
    anchorLoop o expires (ov :: rest) = anchorLoop o expires rest := by
  simp [anchorLoop, hd]

lemma anchorLoop_cons_regular (o : versionSeriesFinalizeOptions) (expires : Int)
    (ov : objectVersion) (rest : List objectVersion) (hd : ov.deleteMarker = false) :
    anchorLoop o expires (ov :: rest) = (emitOpt (o.extend ov expires), rest.reverse) := by
  simp [anchorLoop, hd]

lemma outerLoop_cons_notLatest (o : versionSeriesFinalizeOptions)
    (ov : objectVersion) (rest : List objectVersion) (hl : ov.isLatest = false) :
    outerLoop o (ov :: rest) =
      (emitOpt (o.extendFromNow ov) ++ (outerLoop o rest).1, (outerLoop o rest).2) := by
  simp [outerLoop, hl]

lemma outerLoop_cons_latest_regular (o : versionSeriesFinalizeOptions)
    (ov : objectVersion) (rest : List objectVersion)
    (hl : ov.isLatest = true) (hd : ov.deleteMarker = false) :
    outerLoop o (ov :: rest) = (emitOpt (o.extendFromNow ov), rest.reverse) := by
  simp [outerLoop, hl, hd]

lemma outerLoop_cons_tomb_expired (o : versionSeriesFinalizeOptions)
    (ov : objectVersion) (rest : List objectVersion)
    (hl : ov.isLatest = true) (hd : ov.deleteMarker = true)
    (he : ov.lastModified + o.minDeletionAge < o.now) :
    outerLoop o (ov :: rest) = ([], rest.reverse ++ [ov]) := by
  simp [outerLoop, hl, hd, he]

lemma outerLoop_cons_tomb_live (o : versionSeriesFinalizeOptions)
    (ov : objectVersion) (rest : List objectVersion)
    (hl : ov.isLatest = true) (hd : ov.deleteMarker = true)
    (he : ¬ ov.lastModified + o.minDeletionAge < o.now) :
    outerLoop o (ov :: rest) =
      anchorLoop o (ov.lastModified + o.minDeletionAge) (ov :: rest) := by
  simp [outerLoop, hl, hd, he]

/-- The no-latest branch of `versionSeries.finalize` (part_010 lines
80-88): extend every item from `now`, oldest first. -/
def extendAllFromNow (o : versionSeriesFinalizeOptions)
    (items : List objectVersion) : List retentionExtenderRequest :=
  items.foldr (fun ov acc => emitOpt (o.extendFromNow ov) ++ acc) []

/-- Model of `versionSeries.finalize` (part_010 lines 77-151). -/
def versionSeries.finalize (s : versionSeries) (o : versionSeriesFinalizeOptions) :
    versionSeriesResult :=
  if s.haveLatest = false then
    { expired := [], retention := extendAllFromNow o s.items }
  else
    let r := outerLoop o s.items.reverse
    { expired := r.2.takeWhile (expiryPred o), retention := r.1 }

example :
    let v1 : objectVersion :=
      { lastModified := 0, retainUntil := 0, key := "k", versionID := "a",
        size := 0, isLatest := false, deleteMarker := false }
    let v2 : objectVersion :=
      { lastModified := 100, retainUntil := 0, key := "k", versionID := "b",
        size := 0, isLatest := true, deleteMarker := false }
    let s := (newVersionSeries "k").addAll [v2, v1]
    let o : versionSeriesFinalizeOptions :=
      { now := 1000, minRetention := 10, minDeletionAge := 20 }
    s.items = [v1, v2] ∧
      s.finalize o = { expired := [v1], retention := [{ object := v2, untilTime := 1010 }] } := by
  decide

/-! ### Basic facts about the sort comparison -/

lemma ovCmp_eq_lt_iff {a b : objectVersion} :
    ovCmp a b = .lt ↔
      a.lastModified < b.lastModified ∨
        (a.lastModified = b.lastModified ∧ a.versionID < b.versionID) := by
  unfold ovCmp
  rcases lt_trichotomy a.lastModified b.lastModified with h | h | h
  · simp [h]
  · rcases lt_trichotomy a.versionID b.versionID with h2 | h2 | h2 <;>
      simp [h, h2, lt_asymm, lt_irrefl]
  · simp [h, lt_asymm h, h.ne.symm]

lemma ovCmp_eq_eq_iff {a b : objectVersion} :
    ovCmp a b = .eq ↔ a.lastModified = b.lastModified ∧ a.versionID = b.versionID := by
  unfold ovCmp
  rcases lt_trichotomy a.lastModified b.lastModified with h | h | h
  · simp [h, h.ne, lt_asymm h]
  · rcases lt_trichotomy a.versionID b.versionID with h2 | h2 | h2
    · simp [h, h2, ne_of_lt h2]
    · simp [h, h2]
    · simp [h, h2, lt_asymm h2, ne_of_gt h2]
  · simp [h, lt_asymm h, h.ne.symm]

lemma ovCmp_eq_gt_iff {a b : objectVersion} :
    ovCmp a b = .gt ↔ ovCmp b a = .lt := by
  unfold ovCmp
  rcases lt_trichotomy a.lastModified b.lastModified with h | h | h
  · simp [h, lt_asymm h, h.ne]
  · rcases lt_trichotomy a.versionID b.versionID with h2 | h2 | h2
    · simp [h, h2, lt_asymm h2]
    · simp [h, h2]
    · simp [h, h2, lt_asymm h2]
  · simp [h, lt_asymm h, h.ne.symm]

lemma ovLE_iff {a b : objectVersion} :
    ovLE a b ↔ a.lastModified < b.lastModified ∨
      (a.lastModified = b.lastModified ∧ a.versionID ≤ b.versionID) := by
  unfold ovLE
  rw [Ne, ovCmp_eq_gt_iff, ovCmp_eq_lt_iff]
  push_neg
  constructor
  · rintro ⟨h1, h2⟩
    rcases eq_or_lt_of_le h1 with he | hl
    · exact Or.inr ⟨he, h2 he.symm⟩
    · exact Or.inl hl
  · rintro (hl | ⟨he, hv⟩)
    · refine ⟨le_of_lt hl, fun hba => absurd hl ?_⟩
      rw [hba]
      exact lt_irrefl _
    · exact ⟨le_of_eq he, fun _ => hv⟩

lemma ovLE_trans {a b c : objectVersion} (h1 : ovLE a b) (h2 : ovLE b c) : ovLE a c := by
  rw [ovLE_iff] at h1 h2 ⊢
  rcases h1 with h1 | ⟨e1, v1⟩ <;> rcases h2 with h2 | ⟨e2, v2⟩
  · exact Or.inl (lt_trans h1 h2)
  · exact Or.inl (e2 ▸ h1)
  · exact Or.inl (e1 ▸ h2)
  · exact Or.inr ⟨e1.trans e2, le_trans v1 v2⟩

lemma ovLE_total (a b : objectVersion) : ovLE a b ∨ ovLE b a := by
  by_cases h : ovCmp a b = .gt
  · right
    intro hgt
    rw [ovCmp_eq_gt_iff] at hgt
    exact absurd (hgt.symm.trans h) (by decide)
  · exact Or.inl h

lemma ovLE_of_cmp_lt {a b : objectVersion} (h : ovCmp a b = .lt) : ovLE a b := by
  intro hg
  exact absurd (h.symm.trans hg) (by decide)

/-! ### C1: latest-present safety -/

lemma outerLoop_snd_eq_nil (o : versionSeriesFinalizeOptions) (rl : List objectVersion)
    (h : ∀ v ∈ rl, v.isLatest = false) : (outerLoop o rl).2 = [] := by
  induction rl with
  | nil => rfl
  | cons ov rest ih =>
    have hov := h ov (List.mem_cons_self _ _)
    simp only [outerLoop, hov, Bool.false_eq_true, if_false]
    exact ih fun v hv => h v (List.mem_cons_of_mem _ hv)

/-- C1: if no item of a version series carries `isLatest = true`,
finalization emits nothing to the delete stream: `expired` is empty
regardless of ages and retention timestamps. -/
theorem finalize_expired_empty_of_no_latest (s : versionSeries)
    (o : versionSeriesFinalizeOptions) (h : ∀ v ∈ s.items, v.isLatest = false) :
    (s.finalize o).expired = [] := by
  unfold versionSeries.finalize
  cases hb : s.haveLatest with
  | false => simp
  | true =>
    simp only [Bool.true_eq_false, if_false]
    rw [outerLoop_snd_eq_nil o _ fun v hv => h v (List.mem_reverse.mp hv)]
    rfl

/-- Witness for C1 at a concrete input. -/
theorem finalize_expired_empty_of_no_latest_witness :
    (∀ v ∈ ((newVersionSeries "k").addAll
        [{ lastModified := 5, retainUntil := 0, key := "k", versionID := "a",
           size := 0, isLatest := false, deleteMarker := false }]).items,
      v.isLatest = false) ∧
    (((newVersionSeries "k").addAll
        [{ lastModified := 5, retainUntil := 0, key := "k", versionID := "a",
           size := 0, isLatest := false, deleteMarker := false }]).finalize
      { now := 100, minRetention := 7, minDeletionAge := 3 }).expired = [] :=
  ⟨by decide, finalize_expired_empty_of_no_latest _ _ (by decide)⟩

/-! ### C2: expiry lower bound -/

/-- C2: every version emitted to the delete stream was last modified
strictly before `now - minDeletionAge` and has a `retainUntil` that is
zero or strictly before `now`. -/
theorem finalize_expired_lower_bound (s : versionSeries)
    (o : versionSeriesFinalizeOptions) (v : objectVersion)
    (h : v ∈ (s.finalize o).expired) :
    v.lastModified < o.now - o.minDeletionAge ∧
      (v.retainUntil = 0 ∨ v.retainUntil < o.now) := by
  unfold versionSeries.finalize at h
  cases hb : s.haveLatest with
  | false =>
    rw [hb] at h
    simp at h
  | true =>
    rw [hb] at h
    simp only [Bool.true_eq_false, if_false] at h
    have hp := List.mem_takeWhile_imp h
    simpa [expiryPred] using hp

/-- Concrete data shared by several witnesses: the "two versions" scenario of the spec
scenario (an old unretained version below a regular latest version). -/
def sampleOld : objectVersion :=
  { lastModified := 0, retainUntil := 0, key := "k", versionID := "a",
    size := 0, isLatest := false, deleteMarker := false }

def sampleLatest : objectVersion :=
  { lastModified := 100, retainUntil := 0, key := "k", versionID := "b",
    size := 0, isLatest := true, deleteMarker := false }

def sampleSeries : versionSeries := (newVersionSeries "k").addAll [sampleLatest, sampleOld]

def sampleOpts : versionSeriesFinalizeOptions :=
  { now := 1000, minRetention := 10, minDeletionAge := 20 }

/-- Witness for C2 at a concrete input (the "two versions" scenario). -/
theorem finalize_expired_lower_bound_witness :
    sampleOld ∈ (sampleSeries.finalize sampleOpts).expired ∧
      sampleOld.lastModified < sampleOpts.now - sampleOpts.minDeletionAge ∧
      (sampleOld.retainUntil = 0 ∨ sampleOld.retainUntil < sampleOpts.now) :=
  ⟨by decide, finalize_expired_lower_bound sampleSeries sampleOpts sampleOld (by decide)⟩

/-! ### C6: the retention target when extending from now -/

/-- C6: when finalization extends a version from `now`, the requested
target timestamp is `max now lastModified + minRetention`, and the
request is emitted exactly when the item is not a tombstone and its
current `retainUntil` is zero or strictly before the target. -/
theorem extendFromNow_target (o : versionSeriesFinalizeOptions) (ov : objectVersion) :
    (o.extendFromNow ov).1.untilTime = max o.now ov.lastModified + o.minRetention ∧
      ((o.extendFromNow ov).2 = true ↔
        ov.deleteMarker = false ∧
          (ov.retainUntil = 0 ∨
            ov.retainUntil < max o.now ov.lastModified + o.minRetention)) := by
  have hmax : (if o.now < ov.lastModified then ov.lastModified else o.now) =
      max o.now ov.lastModified := by
    rcases lt_or_ge o.now ov.lastModified with h | h
    · simp [h, max_eq_right (le_of_lt h)]
    · simp [not_lt_of_ge h, max_eq_left h]
  unfold versionSeriesFinalizeOptions.extendFromNow versionSeriesFinalizeOptions.extend
  simp only [hmax]
  refine ⟨by trivial, ?_⟩
  simp only [Bool.and_eq_true, Bool.or_eq_true, decide_eq_true_eq, Bool.not_eq_true']
  tauto

/-! ### C3: disjointness of `expired` and `retention` -/

lemma mem_emitOpt {r : retentionExtenderRequest} {x : retentionExtenderRequest × Bool}
    (h : r ∈ emitOpt x) : r = x.1 := by
  unfold emitOpt at h
  split at h <;> simp_all

lemma extend_object (o : versionSeriesFinalizeOptions) (ov : objectVersion) (u : Int) :
    (o.extend ov u).1.object = ov := rfl

lemma extendFromNow_object (o : versionSeriesFinalizeOptions) (ov : objectVersion) :
    (o.extendFromNow ov).1.object = ov := rfl

/-- The inner loop consumes a suffix of its input: the expiry source it
returns is (reversed) the untouched remainder, and every emitted request
comes from the consumed part. -/
lemma anchorLoop_split (o : versionSeriesFinalizeOptions) (expires : Int)
    (rl : List objectVersion) :
    ∃ mid, rl = mid ++ (anchorLoop o expires rl).2.reverse ∧
      ∀ r ∈ (anchorLoop o expires rl).1, r.object ∈ mid := by
  induction rl with
  | nil => exact ⟨[], by simp [anchorLoop]⟩
  | cons ov rest ih =>
    by_cases hd : ov.deleteMarker
    · obtain ⟨mid, hmid, hmem⟩ := ih
      refine ⟨ov :: mid, ?_, ?_⟩
      · simp only [anchorLoop, hd, if_true, List.cons_append]
        exact congrArg _ hmid
      · intro r hr
        simp only [anchorLoop, hd, if_true] at hr
        exact List.mem_cons_of_mem _ (hmem r hr)
    · refine ⟨[ov], ?_, ?_⟩
      · simp [anchorLoop, hd]
      · intro r hr
        simp only [anchorLoop, hd, if_false] at hr
        have := mem_emitOpt hr
        rw [this, extend_object]
        exact List.mem_singleton_self _
  
/-- The outer loop consumes a suffix of its input, with every emitted
request coming from the consumed part. -/
lemma outerLoop_split (o : versionSeriesFinalizeOptions) (rl : List objectVersion) :
    ∃ mid, rl = mid ++ (outerLoop o rl).2.reverse ∧
      ∀ r ∈ (outerLoop o rl).1, r.object ∈ mid := by
  induction rl with
  | nil => exact ⟨[], by simp [outerLoop]⟩
  | cons ov rest ih =>
    by_cases hl : ov.isLatest
    · by_cases hd : ov.deleteMarker
      · by_cases he : ov.lastModified + o.minDeletionAge < o.now
        · refine ⟨[], ?_, ?_⟩
          · simp [outerLoop, hl, hd, he]
          · intro r hr
            simp only [outerLoop, hl, hd, he, if_true] at hr
            simp at hr
        · obtain ⟨mid, hmid, hmem⟩ := anchorLoop_split o (ov.lastModified + o.minDeletionAge) (ov :: rest)
          refine ⟨mid, ?_, ?_⟩
          · simpa only [outerLoop, hl, hd, he, if_true, if_false] using hmid
          · intro r hr
            refine hmem r ?_
            simpa only [outerLoop, hl, hd, he, if_true, if_false] using hr
      · refine ⟨[ov], ?_, ?_⟩
        · simp [outerLoop, hl, hd]
        · intro r hr
          simp only [outerLoop, hl, hd, if_true, if_false] at hr
          have := mem_emitOpt hr
          rw [this, extendFromNow_object]
          exact List.mem_singleton_self _
    · obtain ⟨mid, hmid, hmem⟩ := ih
      have hl2 : ov.isLatest = false := by simpa using hl
      refine ⟨ov :: mid, ?_, ?_⟩
      · rw [outerLoop_cons_notLatest o ov rest hl2, List.cons_append]
        exact congrArg _ hmid
      · intro r hr
        rw [outerLoop_cons_notLatest o ov rest hl2] at hr
        rcases List.mem_append.mp hr with hr | hr
        · have := mem_emitOpt hr
          rw [this, extendFromNow_object]
          exact List.mem_cons_self _ _
        · exact List.mem_cons_of_mem _ (hmem r hr)

/-- C3: for every finalized series whose items carry pairwise distinct
version identifiers, the `expired` and `retention` outputs are disjoint
by `versionID`. -/
theorem finalize_disjoint (s : versionSeries) (o : versionSeriesFinalizeOptions)
    (hdist : s.items.Pairwise (fun a b => a.versionID ≠ b.versionID)) :
    ∀ r ∈ (s.finalize o).retention, ∀ v ∈ (s.finalize o).expired,
      r.object.versionID ≠ v.versionID := by
  unfold versionSeries.finalize
  cases hb : s.haveLatest with
  | false => simp
  | true =>
    simp only [Bool.true_eq_false, if_false]
    obtain ⟨mid, hmid, hmem⟩ := outerLoop_split o s.items.reverse
    intro r hr v hv
    have hv' : v ∈ (outerLoop o s.items.reverse).2 :=
      (List.takeWhile_sublist _).mem hv
    have hsplit : s.items = (outerLoop o s.items.reverse).2 ++ mid.reverse := by
      have h2 := congrArg List.reverse hmid
      simpa using h2
    have hcross := (List.pairwise_append.mp (hsplit ▸ hdist)).2.2
    exact (hcross v hv' r.object (List.mem_reverse.mpr (hmem r hr))).symm

/-- Witness for C3 at a concrete input with nonempty outputs. -/
theorem finalize_disjoint_witness :
    ({ object := sampleLatest, untilTime := 1010 } : retentionExtenderRequest).object.versionID ≠
      sampleOld.versionID :=
  finalize_disjoint sampleSeries sampleOpts (by decide) _ (by decide) sampleOld (by decide)

/-! ### C4 / C5: behaviour when the latest item is a tombstone -/

lemma mem_of_mem_dropWhile {p : objectVersion → Bool} {l : List objectVersion}
    {a : objectVersion} (h : a ∈ l.dropWhile p) : a ∈ l :=
  (List.dropWhile_sublist _).mem h

lemma dropWhile_head_false {p : objectVersion → Bool} {l : List objectVersion}
    {a : objectVersion} {rest : List objectVersion}
    (h : l.dropWhile p = a :: rest) : p a = false := by
  induction l with
  | nil => simp at h
  | cons x xs ih =>
    by_cases hx : p x
    · rw [List.dropWhile_cons, if_pos hx] at h
      exact ih h
    · rw [List.dropWhile_cons, if_neg hx] at h
      injection h with h1 h2
      subst h1
      simpa using hx

lemma dropWhile_tail_subset {p : objectVersion → Bool} {l : List objectVersion}
    {a : objectVersion} {rest : List objectVersion}
    (h : l.dropWhile p = a :: rest) : ∀ v ∈ rest, v ∈ l := by
  intro v hv
  have hv2 : v ∈ l.dropWhile p := by
    rw [h]
    exact List.mem_cons_of_mem _ hv
  exact mem_of_mem_dropWhile hv2

/-- The inner loop in terms of `dropWhile`: skip the tombstones at the
top, then extend the first regular version to `expires`. -/
lemma anchorLoop_eq_dropWhile (o : versionSeriesFinalizeOptions) (expires : Int)
    (rl : List objectVersion) :
    anchorLoop o expires rl =
      match rl.dropWhile (fun x => x.deleteMarker) with
      | [] => ([], [])
      | a :: rest => (emitOpt (o.extend a expires), rest.reverse) := by
  induction rl with
  | nil => rfl
  | cons ov rest ih =>
    by_cases hd : ov.deleteMarker
    · rw [anchorLoop_cons_marker o expires ov rest hd, ih]
      simp [List.dropWhile_cons, hd]
    · have hd2 : ov.deleteMarker = false := by simpa using hd
      rw [anchorLoop_cons_regular o expires ov rest hd2]
      simp [List.dropWhile_cons, hd2]

/-- C5 (amended): when the newest item of a finalized series is a
tombstone flagged `isLatest` whose expiry
`latest.lastModified + minDeletionAge` is STRICTLY before `now`, nothing
is extended, and the tombstone together with the whole series below it
becomes a deletion candidate: `expired` walks the full item list from the
oldest item upward while the expiration predicate holds. -/
theorem finalize_tombstone_expired (s : versionSeries) (o : versionSeriesFinalizeOptions)
    (pre : List objectVersion) (latest : objectVersion)
    (hhl : s.haveLatest = true)
    (hitems : s.items = pre ++ [latest])
    (hl : latest.isLatest = true) (hd : latest.deleteMarker = true)
    (hexp : latest.lastModified + o.minDeletionAge < o.now) :
    (s.finalize o).retention = [] ∧
      (s.finalize o).expired = s.items.takeWhile (expiryPred o) := by
  have hrev : s.items.reverse = latest :: pre.reverse := by
    rw [hitems]
    simp
  unfold versionSeries.finalize
  rw [hhl]
  simp only [Bool.true_eq_false, if_false]
  rw [hrev, outerLoop_cons_tomb_expired o latest pre.reverse hl hd hexp]
  constructor
  · rfl
  · simp [hitems]

/-- Witness for the amended C5 at a concrete input: the "version
and tombstone both expired" shape from the spec. -/
theorem finalize_tombstone_expired_witness :
    ((((newVersionSeries "k").addAll [sampleOld,
      { lastModified := 50, retainUntil := 0, key := "k", versionID := "d",
        size := 0, isLatest := true, deleteMarker := true }]).finalize
        sampleOpts).retention = []) ∧
    ((((newVersionSeries "k").addAll [sampleOld,
      { lastModified := 50, retainUntil := 0, key := "k", versionID := "d",
        size := 0, isLatest := true, deleteMarker := true }]).finalize
        sampleOpts).expired =
      (((newVersionSeries "k").addAll [sampleOld,
        { lastModified := 50, retainUntil := 0, key := "k", versionID := "d",
          size := 0, isLatest := true, deleteMarker := true }]).items.takeWhile
        (expiryPred sampleOpts))) :=
  finalize_tombstone_expired _ sampleOpts [sampleOld]
    { lastModified := 50, retainUntil := 0, key := "k", versionID := "d",
      size := 0, isLatest := true, deleteMarker := true }
    (by decide) (by decide) (by decide) (by decide) (by decide)

/-- C5 as stated is false at exact equality `tombstone_expiry = now`:
the code uses `expires.Before(opts.now)` (strict), so a tombstone whose
expiry equals `now` is treated as still live — a retention request IS
emitted from the tombstone region and nothing becomes a deletion
candidate, although the claim includes the equality case. -/
theorem tombstone_expiry_boundary_counterexample :
    let anchor : objectVersion :=
      { lastModified := -100, retainUntil := 0, key := "k", versionID := "a",
        size := 0, isLatest := false, deleteMarker := false }
    let tomb : objectVersion :=
      { lastModified := 0, retainUntil := 0, key := "k", versionID := "b",
        size := 0, isLatest := true, deleteMarker := true }
    let s := (newVersionSeries "k").addAll [anchor, tomb]
    let o : versionSeriesFinalizeOptions :=
      { now := 10, minRetention := 3, minDeletionAge := 10 }
    s.items = [anchor, tomb] ∧
      tomb.lastModified + o.minDeletionAge ≤ o.now ∧
      (s.finalize o).retention = [{ object := anchor, untilTime := 10 }] ∧
      (s.finalize o).expired = [] ∧
      expiryPred o anchor = true := by
  decide

/-- C4 (amended): when the newest item of a finalized series is a
tombstone flagged `isLatest` with `now < latest.lastModified +
minDeletionAge`, the tombstone is never in `expired` (no expired item
carries its versionID, and every expired item lies strictly below it);
and the nearest preceding non-tombstone version — when it exists and its
current `retainUntil` is zero or strictly before the tombstone expiry —
is in the retention output with target exactly
`latest.lastModified + minDeletionAge`. -/
theorem finalize_tombstone_live (s : versionSeries) (o : versionSeriesFinalizeOptions)
    (pre : List objectVersion) (latest : objectVersion)
    (hhl : s.haveLatest = true)
    (hitems : s.items = pre ++ [latest])
    (hl : latest.isLatest = true) (hd : latest.deleteMarker = true)
    (hlive : o.now < latest.lastModified + o.minDeletionAge)
    (hdist : s.items.Pairwise (fun a b => a.versionID ≠ b.versionID)) :
    (∀ v ∈ (s.finalize o).expired, v ∈ pre ∧ v.versionID ≠ latest.versionID) ∧
      ∀ a rest2, pre.reverse.dropWhile (fun x => x.deleteMarker) = a :: rest2 →
        (a.retainUntil = 0 ∨ a.retainUntil < latest.lastModified + o.minDeletionAge) →
        ({ object := a, untilTime := latest.lastModified + o.minDeletionAge } :
          retentionExtenderRequest) ∈ (s.finalize o).retention := by
  have hrev : s.items.reverse = latest :: pre.reverse := by
    rw [hitems]
    simp
  have hne : ¬ latest.lastModified + o.minDeletionAge < o.now := lt_asymm hlive
  have hfin : s.finalize o =
      { expired := (anchorLoop o (latest.lastModified + o.minDeletionAge)
          (latest :: pre.reverse)).2.takeWhile (expiryPred o),
        retention := (anchorLoop o (latest.lastModified + o.minDeletionAge)
          (latest :: pre.reverse)).1 } := by
    unfold versionSeries.finalize
    rw [hhl]
    simp only [Bool.true_eq_false, if_false]
    rw [hrev, outerLoop_cons_tomb_live o latest pre.reverse hl hd hne]
  rw [anchorLoop_cons_marker o _ latest pre.reverse hd,
    anchorLoop_eq_dropWhile o _ pre.reverse] at hfin
  have hcross : ∀ x ∈ pre, x.versionID ≠ latest.versionID := by
    rw [hitems] at hdist
    intro x hx
    exact (List.pairwise_append.mp hdist).2.2 x hx latest (List.mem_singleton_self _)
  constructor
  · intro v hv
    rw [hfin] at hv
    revert hv
    cases hdw : pre.reverse.dropWhile (fun x => x.deleteMarker) with
    | nil =>
      intro hv
      simp at hv
    | cons a rest2 =>
      intro hv
      simp only at hv
      have hv2 : v ∈ rest2.reverse := (List.takeWhile_sublist _).mem hv
      have hv3 : v ∈ pre := by
        have := dropWhile_tail_subset hdw v (List.mem_reverse.mp hv2)
        exact List.mem_reverse.mp (by simpa using this)
      exact ⟨hv3, hcross v hv3⟩
  · intro a rest2 hdw hgate
    rw [hfin]
    simp only [hdw]
    have hda : a.deleteMarker = false := dropWhile_head_false hdw
    have hok : (o.extend a (latest.lastModified + o.minDeletionAge)).2 = true := by
      unfold versionSeriesFinalizeOptions.extend
      simp only [hda, Bool.not_false, Bool.and_true, Bool.or_eq_true, decide_eq_true_eq]
      exact hgate
    unfold emitOpt
    rw [hok, if_pos rfl]
    exact List.mem_singleton_self _

/-- Witness for the amended C4 at a concrete input: the "version
before recent tombstone" shape from the spec. -/
theorem finalize_tombstone_live_witness :
    ({ object := sampleOld,
       untilTime := (50 : Int) + 100 } : retentionExtenderRequest) ∈
      ((((newVersionSeries "k").addAll [sampleOld,
        { lastModified := 50, retainUntil := 0, key := "k", versionID := "d",
          size := 0, isLatest := true, deleteMarker := true }]).finalize
        { now := 60, minRetention := 10, minDeletionAge := 100 }).retention) :=
  (finalize_tombstone_live _ _ [sampleOld]
    { lastModified := 50, retainUntil := 0, key := "k", versionID := "d",
      size := 0, isLatest := true, deleteMarker := true }
    (by decide) (by decide) (by decide) (by decide) (by decide) (by decide)).2
    sampleOld [] (by decide) (by decide)

/-- C4 as stated is false when the nearest preceding non-tombstone
already carries a retention timestamp at or past the tombstone expiry:
`extend` only emits a request when `retainUntil` is zero or strictly
before the target (part_010 line 74), so the retention output is empty
although the claim demands membership of the anchor. -/
theorem tombstone_extend_counterexample :
    let anchor : objectVersion :=
      { lastModified := 0, retainUntil := 100, key := "k", versionID := "a",
        size := 0, isLatest := false, deleteMarker := false }
    let tomb : objectVersion :=
      { lastModified := 1, retainUntil := 0, key := "k", versionID := "b",
        size := 0, isLatest := true, deleteMarker := true }
    let s := (newVersionSeries "k").addAll [anchor, tomb]
    let o : versionSeriesFinalizeOptions :=
      { now := 5, minRetention := 3, minDeletionAge := 10 }
    s.items = [anchor, tomb] ∧
      o.now < tomb.lastModified + o.minDeletionAge ∧
      anchor.deleteMarker = false ∧
      (s.finalize o).retention = [] := by
  decide

/-! ### C7: permutation-independent sorted insertion -/

lemma ovLE_iff_not_cmp_lt {v x : objectVersion} : ovLE v x ↔ ¬ ovCmp x v = .lt := by
  rw [ovLE, Ne, ovCmp_eq_gt_iff]

lemma ovCmp_ne_eq_symm : Symmetric (fun a b : objectVersion => ovCmp a b ≠ .eq) := by
  intro a b h he
  rw [ovCmp_eq_eq_iff] at he
  exact h (ovCmp_eq_eq_iff.mpr ⟨he.1.symm, he.2.symm⟩)

lemma ovCmp_lt_of_le_of_ne {a b : objectVersion} (hle : ovLE a b)
    (hne : ovCmp a b ≠ .eq) : ovCmp a b = .lt := by
  cases h : ovCmp a b with
  | lt => rfl
  | eq => exact absurd h hne
  | gt => exact absurd h hle

lemma insertSorted_perm (v : objectVersion) (l : List objectVersion) :
    (insertSorted v l).Perm (v :: l) := by
  induction l with
  | nil => exact List.Perm.refl _
  | cons x xs ih =>
    unfold insertSorted
    by_cases h : ovCmp x v = .lt
    · rw [if_pos h]
      exact (ih.cons x).trans (List.Perm.swap v x xs)
    · rw [if_neg h]

lemma insertSorted_sorted (v : objectVersion) (l : List objectVersion)
    (h : List.Sorted ovLE l) : List.Sorted ovLE (insertSorted v l) := by
  induction l with
  | nil => simp [insertSorted]
  | cons x xs ih =>
    rw [List.sorted_cons] at h
    obtain ⟨hx, hxs⟩ := h
    unfold insertSorted
    by_cases hc : ovCmp x v = .lt
    · rw [if_pos hc, List.sorted_cons]
      refine ⟨?_, ih hxs⟩
      intro y hy
      rcases List.mem_cons.mp ((insertSorted_perm v xs).mem_iff.mp hy) with hy2 | hy2
      · exact hy2 ▸ ovLE_of_cmp_lt hc
      · exact hx y hy2
    · rw [if_neg hc, List.sorted_cons]
      have hvx : ovLE v x := ovLE_iff_not_cmp_lt.mpr hc
      refine ⟨?_, List.sorted_cons.mpr ⟨hx, hxs⟩⟩
      intro y hy
      rcases List.mem_cons.mp hy with hy2 | hy2
      · exact hy2 ▸ hvx
      · exact ovLE_trans hvx (hx y hy2)

lemma foldl_insertSorted_perm (l acc : List objectVersion) :
    (l.foldl (fun a v => insertSorted v a) acc).Perm (acc ++ l) := by
  induction l generalizing acc with
  | nil => simp
  | cons x xs ih =>
    simp only [List.foldl_cons]
    refine (ih _).trans ?_
    refine ((insertSorted_perm x acc).append_right xs).trans ?_
    exact List.perm_middle.symm

lemma foldl_insertSorted_sorted (l acc : List objectVersion)
    (h : List.Sorted ovLE acc) :
    List.Sorted ovLE (l.foldl (fun a v => insertSorted v a) acc) := by
  induction l generalizing acc with
  | nil => exact h
  | cons x xs ih => exact ih _ (insertSorted_sorted x acc h)

lemma sorted_strict_perm_eq : ∀ l₁ l₂ : List objectVersion,
    l₁.Pairwise (fun a b => ovCmp a b = .lt) →
    l₂.Pairwise (fun a b => ovCmp a b = .lt) →
    l₁.Perm l₂ → l₁ = l₂ := by
  intro l₁
  induction l₁ with
  | nil =>
    intro l₂ _ _ hp
    exact hp.nil_eq
  | cons a t₁ ih =>
    intro l₂ h₁ h₂ hp
    cases l₂ with
    | nil => exact absurd hp.symm.nil_eq (by simp)
    | cons b t₂ =>
      by_cases hab : a = b
      · subst hab
        rw [ih t₂ h₁.of_cons h₂.of_cons hp.cons_inv]
      · have ha : a ∈ t₂ := by
          rcases List.mem_cons.mp (hp.mem_iff.mp (List.mem_cons_self _ _)) with h | h
          · exact absurd h hab
          · exact h
        have hb : b ∈ t₁ := by
          rcases List.mem_cons.mp (hp.symm.mem_iff.mp (List.mem_cons_self _ _)) with h | h
          · exact absurd h.symm hab
          · exact h
        have hlt1 : ovCmp a b = .lt := (List.pairwise_cons.mp h₁).1 b hb
        have hlt2 : ovCmp a b = .gt := ovCmp_eq_gt_iff.mpr ((List.pairwise_cons.mp h₂).1 a ha)
        exact absurd (hlt1.symm.trans hlt2) (by decide)

lemma addAll_items (s : versionSeries) (l : List objectVersion) :
    (s.addAll l).items = l.foldl (fun a v => insertSorted v a) s.items := by
  induction l generalizing s with
  | nil => rfl
  | cons x xs ih =>
    simp only [versionSeries.addAll, List.foldl_cons] at ih ⊢
    exact ih (s.add x)

/-- C7: inserting the same collection of versions (with pairwise distinct
sort keys, i.e. no two items tie on both `lastModified` and `versionID`)
into a fresh series in any permutation yields the same `items` list — the
collection arranged in ascending `(lastModified, versionID)` order. -/
theorem addAll_perm_invariant (key : String) (l₁ l₂ : List objectVersion)
    (hperm : l₁.Perm l₂)
    (hdist : l₁.Pairwise (fun a b => ovCmp a b ≠ .eq)) :
    ((newVersionSeries key).addAll l₁).items = ((newVersionSeries key).addAll l₂).items ∧
      List.Sorted ovLE ((newVersionSeries key).addAll l₁).items ∧
      ((newVersionSeries key).addAll l₁).items.Perm l₁ := by
  have hi1 := addAll_items (newVersionSeries key) l₁
  have hi2 := addAll_items (newVersionSeries key) l₂
  have hp1 : ((newVersionSeries key).addAll l₁).items.Perm l₁ := by
    rw [hi1]
    exact (foldl_insertSorted_perm l₁ []).trans (by simp)
  have hp2 : ((newVersionSeries key).addAll l₂).items.Perm l₂ := by
    rw [hi2]
    exact (foldl_insertSorted_perm l₂ []).trans (by simp)
  have hs1 : List.Sorted ovLE ((newVersionSeries key).addAll l₁).items := by
    rw [hi1]
    exact foldl_insertSorted_sorted l₁ [] List.sorted_nil
  have hs2 : List.Sorted ovLE ((newVersionSeries key).addAll l₂).items := by
    rw [hi2]
    exact foldl_insertSorted_sorted l₂ [] List.sorted_nil
  have hd1 : ((newVersionSeries key).addAll l₁).items.Pairwise
      (fun a b => ovCmp a b ≠ .eq) :=
    (hp1.pairwise_iff fun h => ovCmp_ne_eq_symm h).mpr hdist
  have hd2 : ((newVersionSeries key).addAll l₂).items.Pairwise
      (fun a b => ovCmp a b ≠ .eq) :=
    (hp2.pairwise_iff fun h => ovCmp_ne_eq_symm h).mpr ((hperm.pairwise_iff fun h => ovCmp_ne_eq_symm h).mp hdist)
  have hstrict1 := (hs1.and hd1).imp fun h => ovCmp_lt_of_le_of_ne h.1 h.2
  have hstrict2 := (hs2.and hd2).imp fun h => ovCmp_lt_of_le_of_ne h.1 h.2
  refine ⟨?_, hs1, hp1⟩
  exact sorted_strict_perm_eq _ _ hstrict1 hstrict2 (hp1.trans (hperm.trans hp2.symm))

/-- Witness for C7 at a concrete input: two permutations of the same
two-element collection produce the identical sorted `items` list. -/
theorem addAll_perm_invariant_witness :
    [sampleLatest, sampleOld].Perm [sampleOld, sampleLatest] ∧
      ((newVersionSeries "k").addAll [sampleLatest, sampleOld]).items =
        ((newVersionSeries "k").addAll [sampleOld, sampleLatest]).items ∧
      List.Sorted ovLE ((newVersionSeries "k").addAll [sampleLatest, sampleOld]).items ∧
      ((newVersionSeries "k").addAll [sampleLatest, sampleOld]).items.Perm
        [sampleLatest, sampleOld] :=
  ⟨by decide, addAll_perm_invariant "k" [sampleLatest, sampleOld]
    [sampleOld, sampleLatest] (by decide) (by decide)⟩

/-! ### C10: the expired output is an oldest-first contiguous prefix -/

lemma takeWhile_eq_take (p : objectVersion → Bool) :
    ∀ l : List objectVersion, ∃ n, l.takeWhile p = l.take n ∧ n ≤ l.length := by
  intro l
  induction l with
  | nil => exact ⟨0, rfl, Nat.le_refl _⟩
  | cons x xs ih =>
    by_cases hx : p x
    · obtain ⟨n, hn, hnle⟩ := ih
      refine ⟨n + 1, ?_, Nat.succ_le_succ hnle⟩
      rw [List.takeWhile_cons, if_pos hx, List.take_succ_cons, hn]
    · refine ⟨0, ?_, Nat.zero_le _⟩
      rw [List.takeWhile_cons, if_neg hx, List.take_zero]

lemma finalize_expired_eq (s : versionSeries) (o : versionSeriesFinalizeOptions)
    (hb : s.haveLatest = true) :
    (s.finalize o).expired = (outerLoop o s.items.reverse).2.takeWhile (expiryPred o) := by
  unfold versionSeries.finalize
  rw [hb]
  simp only [Bool.true_eq_false, if_false]

/-- C10: for any series built by insertion from an arbitrary collection,
the expired output is a contiguous oldest-first portion of the sorted
items: it equals `items.take n` for some `n`, it is itself sorted
ascending, and together with any expired version every strictly older
item of the series is expired as well. -/
theorem finalize_expired_take (key : String) (l : List objectVersion)
    (o : versionSeriesFinalizeOptions) (s : versionSeries)
    (hs : s = (newVersionSeries key).addAll l) :
    (∃ n, (s.finalize o).expired = s.items.take n) ∧
      List.Sorted ovLE (s.finalize o).expired ∧
      ∀ w ∈ (s.finalize o).expired, ∀ v ∈ s.items,
        v.lastModified < w.lastModified → v ∈ (s.finalize o).expired := by
  have hsorted : List.Sorted ovLE s.items := by
    rw [hs, addAll_items]
    exact foldl_insertSorted_sorted l _ List.sorted_nil
  have hmain : ∃ n, (s.finalize o).expired = s.items.take n := by
    cases hb : s.haveLatest with
    | false =>
      refine ⟨0, ?_⟩
      unfold versionSeries.finalize
      rw [hb]
      simp
    | true =>
      rw [finalize_expired_eq s o hb]
      obtain ⟨mid, hmid, _⟩ := outerLoop_split o s.items.reverse
      have hsplit : s.items = (outerLoop o s.items.reverse).2 ++ mid.reverse := by
        have h2 := congrArg List.reverse hmid
        simpa using h2
      obtain ⟨n, hn, hnle⟩ := takeWhile_eq_take (expiryPred o) (outerLoop o s.items.reverse).2
      refine ⟨n, ?_⟩
      rw [hn]
      conv_rhs => rw [hsplit]
      rw [List.take_append_eq_append_take, Nat.sub_eq_zero_of_le hnle,
        List.take_zero, List.append_nil]
  obtain ⟨n, hn⟩ := hmain
  refine ⟨⟨n, hn⟩, ?_, ?_⟩
  · rw [hn]
    exact List.Pairwise.sublist (List.take_sublist n s.items) hsorted
  · intro w hw v hv hlt
    rw [hn] at hw ⊢
    have hha : s.items = s.items.take n ++ s.items.drop n :=
      (List.take_append_drop n s.items).symm
    have hcross := (List.pairwise_append.mp (hha ▸ hsorted)).2.2
    rw [hha] at hv
    rcases List.mem_append.mp hv with hv2 | hv2
    · exact hv2
    · exfalso
      have hle : ovLE w v := hcross w hw v hv2
      exact hle (ovCmp_eq_gt_iff.mpr (ovCmp_eq_lt_iff.mpr (Or.inl hlt)))

/-- Witness for C10 at a concrete input. -/
theorem finalize_expired_take_witness :
    (sampleSeries.finalize sampleOpts).expired = sampleSeries.items.take 1 ∧
      List.Sorted ovLE (sampleSeries.finalize sampleOpts).expired :=
  ⟨by decide,
   (finalize_expired_take "k" [sampleLatest, sampleOld] sampleOpts sampleSeries rfl).2.1⟩

/-! ### C8: the retention extender -/

/-- Side effects performed by the retention extender: the provider
`PutObjectRetention` call and the cache `SetObjectRetention` write. -/
inductive extenderEvent where
  | putRetention (key versionID : String) (untilTime : Int)
  | stateSet (key versionID : String) (untilTime : Int)
deriving Repr, DecidableEq

/-- Model of `retentionExtender` (extender_test.go lines 359-368): the
fields consulted by `process`. -/
structure retentionExtender where
  now : Int
  minRemaining : Int
  dryRun : Bool
deriving Repr, DecidableEq

/-- One second in the nanosecond timeline (Go `time.Second`). -/
def nsPerSecond : Int := 1000000000

/-- Go `Duration.Truncate(time.Second)`: round toward zero to a multiple
of one second; the Go `%` operator is the T-division remainder, i.e. `Int.tmod`. -/
def truncateSecond (d : Int) : Int := d - Int.tmod d nsPerSecond

/-- Model of `retentionExtender.process` (extender_test.go lines 402-438).
The provider call and the cache write are oracles returning success or an
error string; the event list records the calls performed, in order.
Logging and statistics are not modelled. -/
def retentionExtender.process (e : retentionExtender)
    (put : String → String → Int → Except String Unit)
    (set : String → String → Int → Except String Unit)
    (req : retentionExtenderRequest) : Except String Unit × List extenderEvent :=
  if req.object.deleteMarker then
    -- Delete markers do not support retention periods.
    (Except.ok (), [])
  else if req.untilTime = 0 then
    (Except.error "invalid argument: missing retention time", [])
  else
    let remaining := truncateSecond (req.untilTime - e.now)
    if req.object.retainUntil = 0 ∨ remaining < e.minRemaining then
      if e.dryRun then (Except.ok (), [])
      else
        match put req.object.key req.object.versionID req.untilTime with
        | Except.error err =>
          (Except.error ("setting object retention via API: " ++ err),
            [extenderEvent.putRetention req.object.key req.object.versionID req.untilTime])
        | Except.ok _ =>
          match set req.object.key req.object.versionID req.untilTime with
          | Except.error err =>
            (Except.error ("setting object retention in state: " ++ err),
              [extenderEvent.putRetention req.object.key req.object.versionID req.untilTime,
               extenderEvent.stateSet req.object.key req.object.versionID req.untilTime])
          | Except.ok _ =>
            (Except.ok (),
              [extenderEvent.putRetention req.object.key req.object.versionID req.untilTime,
               extenderEvent.stateSet req.object.key req.object.versionID req.untilTime])
    else (Except.ok (), [])

/-- Model of one worker of `retentionExtender.run` (extender_test.go lines
441-461) draining the request channel sequentially: per-request failures
are counted and swallowed. Returns the retention-error count and the
performed events. -/
def retentionExtender.run (e : retentionExtender)
    (put set : String → String → Int → Except String Unit)
    (reqs : List retentionExtenderRequest) : Nat × List extenderEvent :=
  reqs.foldl
    (fun acc req =>
      let r := e.process put set req
      (acc.1 + (match r.1 with | Except.ok _ => 0 | Except.error _ => 1), acc.2 ++ r.2))
    (0, [])

/-- C8 (amended): with a succeeding provider and cache and dry-run off:
a tombstone request is skipped without error or effect; a zero `until`
yields the invalid-request error, counted by the worker; otherwise the
provider call followed by the cache write is performed exactly when the
object field `retainUntil` is zero or the remaining duration `until - now`,
truncated toward zero to whole seconds, is below `minRemaining`. -/
theorem extender_process_spec (e : retentionExtender)
    (put set : String → String → Int → Except String Unit)
    (req : retentionExtenderRequest)
    (hput : ∀ k v u, put k v u = Except.ok ())
    (hset : ∀ k v u, set k v u = Except.ok ())
    (hdry : e.dryRun = false) :
    (req.object.deleteMarker = true → e.process put set req = (Except.ok (), [])) ∧
    (req.object.deleteMarker = false → req.untilTime = 0 →
      e.process put set req =
        (Except.error "invalid argument: missing retention time", []) ∧
      (e.run put set [req]).1 = 1) ∧
    (req.object.deleteMarker = false → req.untilTime ≠ 0 →
      ((e.process put set req).2 =
          [extenderEvent.putRetention req.object.key req.object.versionID req.untilTime,
           extenderEvent.stateSet req.object.key req.object.versionID req.untilTime] ↔
        (req.object.retainUntil = 0 ∨
          truncateSecond (req.untilTime - e.now) < e.minRemaining)) ∧
      ((e.process put set req).2 = [] ↔
        ¬(req.object.retainUntil = 0 ∨
          truncateSecond (req.untilTime - e.now) < e.minRemaining))) := by
  refine ⟨?_, ?_, ?_⟩
  · intro hd
    unfold retentionExtender.process
    rw [if_pos hd]
  · intro hd hz
    have hp : e.process put set req =
        (Except.error "invalid argument: missing retention time", []) := by
      unfold retentionExtender.process
      rw [if_neg (by simp [hd]), if_pos hz]
    refine ⟨hp, ?_⟩
    unfold retentionExtender.run
    simp [hp]
  · intro hd hz
    by_cases hcond : req.object.retainUntil = 0 ∨
        truncateSecond (req.untilTime - e.now) < e.minRemaining
    · have hp : (e.process put set req).2 =
          [extenderEvent.putRetention req.object.key req.object.versionID req.untilTime,
           extenderEvent.stateSet req.object.key req.object.versionID req.untilTime] := by
        unfold retentionExtender.process
        rw [if_neg (by simp [hd]), if_neg hz]
        simp only []
        rw [if_pos hcond, if_neg (by simp [hdry]), hput, hset]
      rw [hp]
      simp [hcond]
    · have hp : (e.process put set req).2 = [] := by
        unfold retentionExtender.process
        rw [if_neg (by simp [hd]), if_neg hz]
        simp only []
        rw [if_neg hcond]
      rw [hp]
      simp [hcond]

/-- Witness for the amended C8 at a concrete input. -/
theorem extender_process_spec_witness :
    (({ now := 0, minRemaining := 5000000000, dryRun := false } : retentionExtender).process
        (fun _ _ _ => Except.ok ()) (fun _ _ _ => Except.ok ())
        { object := { lastModified := 0, retainUntil := 0, key := "k", versionID := "a",
                      size := 0, isLatest := false, deleteMarker := false },
          untilTime := 7 }).2 =
      [extenderEvent.putRetention "k" "a" 7, extenderEvent.stateSet "k" "a" 7] :=
  ((extender_process_spec _ _ _ _ (fun _ _ _ => rfl) (fun _ _ _ => rfl) rfl).2.2
    (by decide) (by decide)).1.mpr (by decide)

/-- C8 as stated is false in sub-second cases: the code truncates
`until - now` toward zero to whole seconds before comparing against
`minRemaining` (extender_test.go line 412), so a request whose raw
remaining duration is at or above the threshold can still be committed. -/
theorem extender_threshold_counterexample :
    let e : retentionExtender :=
      { now := 0, minRemaining := 1200000000, dryRun := false }
    let req : retentionExtenderRequest :=
      { object := { lastModified := 0, retainUntil := 1, key := "k", versionID := "a",
                    size := 0, isLatest := false, deleteMarker := false },
        untilTime := 1500000000 }
    ¬(req.object.retainUntil = 0 ∨ req.untilTime - e.now < e.minRemaining) ∧
      (e.process (fun _ _ _ => Except.ok ()) (fun _ _ _ => Except.ok ()) req).2 =
        [extenderEvent.putRetention "k" "a" 1500000000,
         extenderEvent.stateSet "k" "a" 1500000000] := by
  decide

/-! ### C9: idempotent annotation -/

/-- External calls performed by the retention annotator: cache lookup,
provider lookup, cache write. -/
inductive annotatorEvent where
  | stateGet (key versionID : String)
  | clientGet (key versionID : String)
  | stateSet (key versionID : String) (untilTime : Int)
deriving Repr, DecidableEq

/-- Model of `retentionAnnotator.annotate` (annotator.go lines 36-63; the
authoritative draft in deleter_test.go lines 131-158 is identical).  The
cache (`stateGet`/`stateSet`) and the provider (`clientGet`) are oracles
returning a value or an error string; the event list records the queries
and writes performed, in order. -/
def retentionAnnotator.annotate
    (stateGet : String → String → Except String Int)
    (clientGet : String → String → Except String Int)
    (stateSet : String → String → Int → Except String Unit)
    (ov : objectVersion) : Except String objectVersion × List annotatorEvent :=
  if ov.retainUntil = 0 then
    match stateGet ov.key ov.versionID with
    | Except.error e =>
      (Except.error ("getting object retention from state: " ++ e),
        [annotatorEvent.stateGet ov.key ov.versionID])
    | Except.ok u0 =>
      -- Delete markers do not support retention periods.
      if u0 = 0 ∧ ov.deleteMarker = false then
        match clientGet ov.key ov.versionID with
        | Except.error e =>
          (Except.error ("getting object retention from API: " ++ e),
            [annotatorEvent.stateGet ov.key ov.versionID,
             annotatorEvent.clientGet ov.key ov.versionID])
        | Except.ok u1 =>
          match stateSet ov.key ov.versionID u1 with
          | Except.error e =>
            (Except.error ("setting object retention in state: " ++ e),
              [annotatorEvent.stateGet ov.key ov.versionID,
               annotatorEvent.clientGet ov.key ov.versionID,
               annotatorEvent.stateSet ov.key ov.versionID u1])
          | Except.ok _ =>
            (Except.ok (if u1 = 0 then ov else { ov with retainUntil := u1 }),
              [annotatorEvent.stateGet ov.key ov.versionID,
               annotatorEvent.clientGet ov.key ov.versionID,
               annotatorEvent.stateSet ov.key ov.versionID u1])
      else
        (Except.ok (if u0 = 0 then ov else { ov with retainUntil := u0 }),
          [annotatorEvent.stateGet ov.key ov.versionID])
  else (Except.ok ov, [])

/-- C9: an input record whose `retainUntil` is already non-zero is
forwarded unchanged, with neither the retention cache nor the provider
queried. -/
theorem annotate_skips_populated
    (stateGet clientGet : String → String → Except String Int)
    (stateSet : String → String → Int → Except String Unit)
    (ov : objectVersion) (h : ov.retainUntil ≠ 0) :
    retentionAnnotator.annotate stateGet clientGet stateSet ov = (Except.ok ov, []) := by
  unfold retentionAnnotator.annotate
  rw [if_neg h]

/-- Witness for C9 at a concrete input: even with a cache and provider
that always fail, an already-annotated record flows through untouched. -/
theorem annotate_skips_populated_witness :
    retentionAnnotator.annotate (fun _ _ => Except.error "cache down")
      (fun _ _ => Except.error "api down") (fun _ _ _ => Except.error "cache down")
      ({ lastModified := 0, retainUntil := 33, key := "k", versionID := "a",
         size := 0, isLatest := false, deleteMarker := false } : objectVersion) =
      (Except.ok
        ({ lastModified := 0, retainUntil := 33, key := "k", versionID := "a",
           size := 0, isLatest := false, deleteMarker := false } : objectVersion), []) :=
  annotate_skips_populated _ _ _ _ (by decide)
